import Mathlib

/-!
Verification of the teller secret-management engine: a shallow embedding of
the provider data model (`KV`, `PathMap`, providers inmem / dotenv / external),
the redactor, the scanner position logic, subprocess environment construction,
config `==` post-processing and the `collect` orchestration, together with
theorems settling the specification claims.

Rust `BTreeMap<String, String>` values are embedded as association lists
(`List (String × String)`) with insert keeping the sorted position and
remove filtering the key out; lookup/insert/remove agree extensionally with
the source. Rust `String` is embedded as Lean `String` (byte length via
UTF-8 sizes); byte strings processed by the redactor and scanner are
embedded as `List Char`.
-/

namespace Teller

/-- Backend kinds, in Rust declaration order (`providers/mod.rs` plus the
`External` variant referenced by `registry.rs`); the derived Rust `Ord`
compares by declaration index. -/
inductive ProviderKind where
  | Inmem
  | Dotenv
  | Hashicorp
  | HashiCorpConsul
  | SSM
  | AWSSecretsManager
  | GoogleSecretManager
  | Etcd
  | External
deriving DecidableEq, Repr

/-- Declaration index of a `ProviderKind` variant. -/
def ProviderKind.toIdx : ProviderKind → Nat
  | .Inmem => 0
  | .Dotenv => 1
  | .Hashicorp => 2
  | .HashiCorpConsul => 3
  | .SSM => 4
  | .AWSSecretsManager => 5
  | .GoogleSecretManager => 6
  | .Etcd => 7
  | .External => 8

/-- Derived `Ord` on the Rust enum: comparison of declaration indices. -/
def kindCmp (a b : ProviderKind) : Ordering := compare a.toIdx b.toIdx

/-- `ProviderInfo { kind, name }` from `config.rs`. -/
structure ProviderInfo where
  kind : ProviderKind
  name : String
deriving DecidableEq, Repr

/-- `PathInfo { id, path }` from `config.rs`. -/
structure PathInfo where
  id : String
  path : String
deriving DecidableEq, Repr

/-- `Sensitivity` ordinal tag from `config.rs`. -/
inductive Sensitivity where
  | None
  | Low
  | Medium
  | High
  | Critical
deriving DecidableEq, Repr

/-- `MetaInfo` from `config.rs`. -/
structure MetaInfo where
  sensitivity : Sensitivity
  redact_with : Option String
  source : Option String
  sink : Option String
deriving DecidableEq, Repr

/-- `KV` from `config.rs`: a materialized secret value in transit. -/
structure KV where
  value : String
  key : String
  from_key : String
  path : Option PathInfo
  provider : Option ProviderInfo
  meta : Option MetaInfo
deriving DecidableEq, Repr

/-- `PathMap` from `config.rs`; `keys` is a `BTreeMap<String,String>`
embedded as an association list in its iteration order. -/
structure PathMap where
  id : String
  protocol : Option String
  path : String
  keys : List (String × String)
  decrypt : Bool
  sensitivity : Sensitivity
  redact_with : Option String
  source : Option String
  sink : Option String
  optional : Bool
deriving DecidableEq, Repr

/-- `PathMap::from_path`. -/
def PathMap.from_path (path : String) : PathMap :=
  { id := "", protocol := none, path := path, keys := [], decrypt := false,
    sensitivity := .None, redact_with := none, source := none, sink := none,
    optional := false }

/-- The error variants of `teller-providers/src/lib.rs` reachable from the
embedded operations. -/
inductive Error where
  | Message (msg : String)
  | NotFound (path msg : String)
  | GetError (path msg : String)
  | DeleteError (path msg : String)
  | PutError (path msg : String)
deriving DecidableEq, Repr

/-! ### Association-list embedding of `BTreeMap<String, String>` -/

/-- `BTreeMap::get`. -/
def alookup {β : Type} : List (String × β) → String → Option β
  | [], _ => none
  | (k', v) :: t, k => if k = k' then some v else alookup t k

/-- `BTreeMap::insert`: replace the value when the key is present, else
place the new pair at its sorted position. -/
def ainsert {β : Type} : List (String × β) → String → β → List (String × β)
  | [], k, v => [(k, v)]
  | (k', v') :: t, k, v =>
    if k < k' then (k, v) :: (k', v') :: t
    else if k = k' then (k, v) :: t
    else (k', v') :: ainsert t k v

/-- `BTreeMap::remove` (on key-unique maps): drop every pair at the key. -/
def aremove {β : Type} : List (String × β) → String → List (String × β)
  | [], _ => []
  | (k', v) :: t, k => if k' = k then aremove t k else (k', v) :: aremove t k

theorem alookup_ainsert_self {β : Type} (l : List (String × β)) (k : String) (v : β) :
    alookup (ainsert l k v) k = some v := by
  induction l with
  | nil => simp [ainsert, alookup]
  | cons p t ih =>
    obtain ⟨k', v'⟩ := p
    by_cases h1 : k < k'
    · simp [ainsert, alookup, h1]
    · by_cases h2 : k = k'
      · simp [ainsert, alookup, h1, h2]
      · simp [ainsert, alookup, h1, h2, ih]

theorem alookup_ainsert_ne {β : Type} (l : List (String × β)) (k k' : String) (v : β)
    (h : k' ≠ k) : alookup (ainsert l k v) k' = alookup l k' := by
  induction l with
  | nil => simp [ainsert, alookup, h]
  | cons p t ih =>
    obtain ⟨k0, v0⟩ := p
    by_cases h1 : k < k0
    · simp [ainsert, alookup, h1, h]
    · by_cases h2 : k = k0
      · subst h2
        simp [ainsert, alookup, h1, h]
      · simp [ainsert, alookup, h1, h2, ih]

theorem alookup_aremove_self {β : Type} (l : List (String × β)) (k : String) :
    alookup (aremove l k) k = none := by
  induction l with
  | nil => simp [aremove, alookup]
  | cons p t ih =>
    obtain ⟨k0, v0⟩ := p
    by_cases h : k0 = k
    · simp [aremove, h, ih]
    · have h' : ¬ k = k0 := fun hh => h hh.symm
      simp [aremove, h, alookup, h', ih]

theorem alookup_aremove_ne {β : Type} (l : List (String × β)) (k k' : String)
    (h : k' ≠ k) : alookup (aremove l k) k' = alookup l k' := by
  induction l with
  | nil => simp [aremove, alookup]
  | cons p t ih =>
    obtain ⟨k0, v0⟩ := p
    by_cases h0 : k0 = k
    · subst h0
      simp [aremove, alookup, h, ih]
    · by_cases h1 : k' = k0
      · simp [aremove, h0, alookup, h1]
      · simp [aremove, h0, alookup, h1, ih]

theorem alookup_mem {β : Type} (l : List (String × β)) (k : String) (v : β)
    (h : alookup l k = some v) : (k, v) ∈ l := by
  induction l with
  | nil => simp [alookup] at h
  | cons p t ih =>
    obtain ⟨k0, v0⟩ := p
    by_cases h0 : k = k0
    · subst h0
      simp [alookup] at h
      simp [h]
    · simp [alookup, h0] at h
      exact List.mem_cons_of_mem _ (ih h)

/-! ### `KV` construction (`config.rs`) -/

/-- `KV::from_value`. -/
def KV.from_value (found_val from_key to_key : String) (pm : PathMap)
    (provider : ProviderInfo) : KV :=
  { value := found_val, key := to_key, from_key := from_key,
    path := some ⟨pm.id, pm.path⟩, provider := some provider,
    meta := some ⟨pm.sensitivity, pm.redact_with, pm.source, pm.sink⟩ }

/-- `KV::from_data`: project a provider dictionary through a `PathMap`. -/
def KV.from_data (data : List (String × String)) (pm : PathMap)
    (provider : ProviderInfo) : List KV :=
  if pm.keys = [] then
    data.map (fun p => KV.from_value p.2 p.1 p.1 pm provider)
  else
    pm.keys.filterMap (fun p =>
      (alookup data p.1).map (fun v => KV.from_value v p.1 p.2 pm provider))

/-- `KV::from_kv`: a KV without any source. -/
def KV.from_kv (key value : String) : KV :=
  { value := value, key := key, from_key := key,
    path := none, provider := none, meta := none }

/-- `KV::from_literal`. -/
def KV.from_literal (path key value : String) (provider : ProviderInfo) : KV :=
  { value := value, key := key, from_key := key,
    path := some ⟨path, path⟩, provider := some provider, meta := none }

/-! ### The blob overlay loop shared by `Inmem::put`, `Dotenv::put` and
`Hashivault::put`: `for kv in kvs { data.insert(kv.key, kv.value) }` -/

/-- Overlay a list of KVs onto a dictionary by key (later entries win). -/
def overlay (data : List (String × String)) (kvs : List KV) : List (String × String) :=
  kvs.foldl (fun d kv => ainsert d kv.key kv.value) data

theorem alookup_overlay_notmem (data : List (String × String)) (kvs : List KV)
    (k : String) (h : k ∉ kvs.map KV.key) :
    alookup (overlay data kvs) k = alookup data k := by
  induction kvs generalizing data with
  | nil => rfl
  | cons kv t ih =>
    simp only [List.map_cons, List.mem_cons] at h
    push_neg at h
    simp only [overlay, List.foldl_cons]
    rw [show List.foldl (fun d kv => ainsert d kv.key kv.value)
          (ainsert data kv.key kv.value) t
        = overlay (ainsert data kv.key kv.value) t from rfl]
    rw [ih _ h.2, alookup_ainsert_ne _ _ _ _ h.1]

theorem alookup_overlay_mem (data : List (String × String)) (kvs : List KV)
    (kv : KV) (hmem : kv ∈ kvs) (hnd : (kvs.map KV.key).Nodup) :
    alookup (overlay data kvs) kv.key = some kv.value := by
  induction kvs generalizing data with
  | nil => cases hmem
  | cons x t ih =>
    simp only [List.map_cons, List.nodup_cons] at hnd
    rcases List.mem_cons.mp hmem with h | h
    · subst h
      simp only [overlay, List.foldl_cons]
      rw [show List.foldl (fun d kv => ainsert d kv.key kv.value)
            (ainsert data kv.key kv.value) t
          = overlay (ainsert data kv.key kv.value) t from rfl]
      rw [alookup_overlay_notmem _ _ _ hnd.1, alookup_ainsert_self]
    · exact ih _ h hnd.2

/-! ### Inmem provider (`providers/inmem.rs`): store is
`BTreeMap<String, BTreeMap<String, String>>` -/

/-- The inmem store. -/
abbrev Store := List (String × List (String × String))

/-- `Inmem::get`. -/
def inmemGet (name : String) (store : Store) (pm : PathMap) :
    Except Error (List KV) :=
  match alookup store pm.path with
  | none => .error (.NotFound pm.path "not found")
  | some data => .ok (KV.from_data data pm ⟨.Inmem, name⟩)

/-- `Inmem::put`: read-modify-write of the dictionary at `pm.path`. -/
def inmemPut (store : Store) (pm : PathMap) (kvs : List KV) : Store :=
  ainsert store pm.path (overlay ((alookup store pm.path).getD []) kvs)

/-- `Inmem::del`: remove the whole path when `pm.keys` is empty, else
remove the listed keys from the dictionary and write it back. -/
def inmemDel (store : Store) (pm : PathMap) : Store :=
  if pm.keys = [] then aremove store pm.path
  else
    ainsert store pm.path
      (pm.keys.foldl (fun d p => aremove d p.1) ((alookup store pm.path).getD []))

/-! ### Dotenv provider (`providers/dotenv.rs`) modify closures, at the
parsed-dictionary level (`load`/`save` move the dictionary to and from the
file at `pm.path`) -/

/-- The closure passed by `Dotenv::put` to `load_modify_save`. -/
def dotenvPutData (data : List (String × String)) (kvs : List KV) :
    List (String × String) :=
  overlay data kvs

/-- The closure passed by `Dotenv::del` to `load_modify_save`: clear all on
empty `pm.keys`, else remove each listed key present in the dictionary. -/
def dotenvDelData (data : List (String × String)) (pm : PathMap) :
    List (String × String) :=
  if pm.keys = [] then []
  else pm.keys.foldl
    (fun d p => if (alookup d p.1).isSome then aremove d p.1 else d) data

theorem alookup_getD_overlay_mem (base : Option (List (String × String)))
    (kvs : List KV) (kv : KV) (hmem : kv ∈ kvs) (hnd : (kvs.map KV.key).Nodup) :
    alookup (overlay (base.getD []) kvs) kv.key = some kv.value :=
  alookup_overlay_mem _ _ _ hmem hnd

/-- C1: for the blob-mapped providers, `put(pm, kvs)` fetches the existing
dictionary at `pm.path` (NotFound coalesced to the empty dictionary),
overlays each kv by key and writes the merged dictionary back: afterwards a
`get` on `pm` with empty `keys` succeeds and returns a list containing
every written `(key, value)` pair, and every pre-existing key at `pm.path`
not listed in `kvs` is still present with its old value. Stated for the
inmem store and for the dotenv provider's put closure at the parsed
dictionary level. -/
theorem claim1_put_read_modify_write (name : String) (store : Store)
    (pm : PathMap) (kvs : List KV) (hnd : (kvs.map KV.key).Nodup) :
    (∃ l, inmemGet name (inmemPut store pm kvs) { pm with keys := [] } = .ok l ∧
      (∀ kv ∈ kvs, ∃ kv' ∈ l, kv'.key = kv.key ∧ kv'.value = kv.value) ∧
      (∀ k v, alookup ((alookup store pm.path).getD []) k = some v →
        k ∉ kvs.map KV.key → ∃ kv' ∈ l, kv'.key = k ∧ kv'.value = v)) ∧
    (∀ data : List (String × String),
      (∀ kv ∈ kvs, alookup (dotenvPutData data kvs) kv.key = some kv.value) ∧
      (∀ k v, alookup data k = some v → k ∉ kvs.map KV.key →
        alookup (dotenvPutData data kvs) k = some v)) := by
  constructor
  · refine ⟨KV.from_data (overlay ((alookup store pm.path).getD []) kvs)
      { pm with keys := [] } ⟨.Inmem, name⟩, ?_, ?_, ?_⟩
    · simp only [inmemGet, inmemPut]
      rw [show ({ pm with keys := [] } : PathMap).path = pm.path from rfl,
        alookup_ainsert_self]
    · intro kv hkv
      have hl : alookup (overlay ((alookup store pm.path).getD []) kvs) kv.key
          = some kv.value := alookup_getD_overlay_mem _ _ _ hkv hnd
      have hmem := alookup_mem _ _ _ hl
      refine ⟨KV.from_value kv.value kv.key kv.key { pm with keys := [] }
        ⟨.Inmem, name⟩, ?_, rfl, rfl⟩
      simp only [KV.from_data, if_pos rfl]
      exact List.mem_map_of_mem _ hmem
    · intro k v hv hnot
      have hl : alookup (overlay ((alookup store pm.path).getD []) kvs) k
          = some v := by
        rw [alookup_overlay_notmem _ _ _ hnot]; exact hv
      have hmem := alookup_mem _ _ _ hl
      refine ⟨KV.from_value v k k { pm with keys := [] } ⟨.Inmem, name⟩,
        ?_, rfl, rfl⟩
      simp only [KV.from_data, if_pos rfl]
      exact List.mem_map_of_mem _ hmem
  · intro data
    exact ⟨fun kv hkv => alookup_overlay_mem _ _ _ hkv hnd,
      fun k v hv hnot => by
        rw [dotenvPutData, alookup_overlay_notmem _ _ _ hnot]; exact hv⟩

/-- A sample `PathMap` used by concrete witnesses. -/
def pmW : PathMap := PathMap.from_path "app/dev"

/-- Witness for C1: a concrete put of `{a:1, b:2}` on a store whose path
already holds `{c:9}`. -/
theorem claim1_put_read_modify_write_witness :
    (∃ l, inmemGet "m" (inmemPut [("app/dev", [("c", "9")])] pmW
        [KV.from_kv "a" "1", KV.from_kv "b" "2"]) { pmW with keys := [] } = .ok l ∧
      (∀ kv ∈ [KV.from_kv "a" "1", KV.from_kv "b" "2"],
        ∃ kv' ∈ l, kv'.key = kv.key ∧ kv'.value = kv.value) ∧
      (∀ k v, alookup ((alookup [("app/dev", [("c", "9")])] pmW.path).getD []) k
          = some v →
        k ∉ ([KV.from_kv "a" "1", KV.from_kv "b" "2"].map KV.key) →
        ∃ kv' ∈ l, kv'.key = k ∧ kv'.value = v)) ∧
    (∀ data : List (String × String),
      (∀ kv ∈ [KV.from_kv "a" "1", KV.from_kv "b" "2"],
        alookup (dotenvPutData data [KV.from_kv "a" "1", KV.from_kv "b" "2"])
          kv.key = some kv.value) ∧
      (∀ k v, alookup data k = some v →
        k ∉ ([KV.from_kv "a" "1", KV.from_kv "b" "2"].map KV.key) →
        alookup (dotenvPutData data [KV.from_kv "a" "1", KV.from_kv "b" "2"]) k
          = some v)) :=
  claim1_put_read_modify_write "m" [("app/dev", [("c", "9")])] pmW
    [KV.from_kv "a" "1", KV.from_kv "b" "2"] (by decide)

theorem alookup_foldl_removeLike
    (step : List (String × String) → (String × String) → List (String × String))
    (hstep : ∀ d p k, alookup (step d p) k = if k = p.1 then none else alookup d k)
    (ks : List (String × String)) (d : List (String × String)) (k : String) :
    alookup (ks.foldl step d) k =
      if k ∈ ks.map Prod.fst then none else alookup d k := by
  induction ks generalizing d with
  | nil => simp
  | cons p t ih =>
    simp only [List.foldl_cons, List.map_cons, List.mem_cons]
    rw [ih]
    by_cases h1 : k ∈ t.map Prod.fst
    · simp [h1]
    · by_cases h2 : k = p.1
      · simp [h1, h2, hstep]
      · simp [h1, h2, hstep]

theorem alookup_aremove_step (d : List (String × String)) (p : String × String)
    (k : String) : alookup (aremove d p.1) k = if k = p.1 then none else alookup d k := by
  by_cases h : k = p.1
  · simp [h, alookup_aremove_self]
  · simp [h, alookup_aremove_ne _ _ _ h]

theorem alookup_dotenv_step (d : List (String × String)) (p : String × String)
    (k : String) :
    alookup (if (alookup d p.1).isSome then aremove d p.1 else d) k =
      if k = p.1 then none else alookup d k := by
  by_cases hp : (alookup d p.1).isSome
  · simp only [hp, if_true]
    exact alookup_aremove_step d p k
  · simp only [hp, if_false]
    by_cases h : k = p.1
    · subst h
      simp only [if_pos rfl]
      exact Option.not_isSome_iff_eq_none.mp hp
    · simp [h]

theorem foldl_aremove_nil (ks : List (String × String)) :
    ks.foldl (fun d p => aremove d p.1) ([] : List (String × String)) = [] := by
  induction ks with
  | nil => rfl
  | cons p t ih => simpa [aremove] using ih

theorem from_data_nil (pm : PathMap) (provider : ProviderInfo) :
    KV.from_data [] pm provider = [] := by
  by_cases h : pm.keys = []
  · simp [KV.from_data, h]
  · simp only [KV.from_data, h, if_false]
    exact List.filterMap_eq_nil_iff.mpr (fun p _ => by simp [alookup])

/-- C2: `del(pm)` with empty `pm.keys` deletes the entire path (a
subsequent inmem `get` is NotFound; the dotenv closure empties the
dictionary); `del(pm)` with non-empty `pm.keys` deletes exactly the listed
keys within the path (for both the inmem store and the dotenv closure);
in particular after `put(pm, {a,b,c})` and `del(pm with keys={b})` the
keys `a` and `c` are still retrievable with their original values. -/
theorem claim2_del_semantics (name : String) (store : Store) (pm : PathMap)
    (data : List (String × String)) (ka kb kc va vb vc : String)
    (hab : ka ≠ kb) (hbc : kb ≠ kc) (hac : ka ≠ kc) :
    (pm.keys = [] →
      inmemGet name (inmemDel store pm) pm = .error (.NotFound pm.path "not found") ∧
      dotenvDelData data pm = []) ∧
    (pm.keys ≠ [] →
      (∀ k, alookup ((alookup (inmemDel store pm) pm.path).getD []) k =
        if k ∈ pm.keys.map Prod.fst then none
        else alookup ((alookup store pm.path).getD []) k) ∧
      (∀ k, alookup (dotenvDelData data pm) k =
        if k ∈ pm.keys.map Prod.fst then none else alookup data k)) ∧
    (∃ l, inmemGet name
        (inmemDel (inmemPut store pm
          [KV.from_kv ka va, KV.from_kv kb vb, KV.from_kv kc vc])
          { pm with keys := [(kb, kb)] })
        { pm with keys := [] } = .ok l ∧
      (∃ kv ∈ l, kv.key = ka ∧ kv.value = va) ∧
      (∃ kv ∈ l, kv.key = kc ∧ kv.value = vc)) := by
  refine ⟨?_, ?_, ?_⟩
  · intro h
    constructor
    · simp [inmemGet, inmemDel, h, alookup_aremove_self]
    · simp [dotenvDelData, h]
  · intro h
    constructor
    · intro k
      simp only [inmemDel, h, if_false, alookup_ainsert_self, Option.getD_some]
      exact alookup_foldl_removeLike _ alookup_aremove_step _ _ _
    · intro k
      simp only [dotenvDelData, h, if_false]
      exact alookup_foldl_removeLike _ alookup_dotenv_step _ _ _
  · set kvs3 : List KV := [KV.from_kv ka va, KV.from_kv kb vb, KV.from_kv kc vc]
      with hkvs3
    have hnd : (kvs3.map KV.key).Nodup := by
      simp [hkvs3, KV.from_kv, hab, hbc, hac]
    set s1 := inmemPut store pm kvs3 with hs1
    have hd1 : alookup s1 pm.path =
        some (overlay ((alookup store pm.path).getD []) kvs3) :=
      alookup_ainsert_self _ _ _
    set d1 := overlay ((alookup store pm.path).getD []) kvs3 with hd1def
    have hkeysne : ([(kb, kb)] : List (String × String)) ≠ [] := by simp
    set pmdel : PathMap := { pm with keys := [(kb, kb)] } with hpmdel
    have hs2 : inmemDel s1 pmdel =
        ainsert s1 pm.path (([(kb, kb)] : List (String × String)).foldl
          (fun d p => aremove d p.1) ((alookup s1 pm.path).getD [])) := by
      simp [inmemDel, hpmdel]
    set d2 := ([(kb, kb)] : List (String × String)).foldl
      (fun d p => aremove d p.1) ((alookup s1 pm.path).getD []) with hd2def
    have hlook2 : alookup (inmemDel s1 pmdel) pm.path = some d2 := by
      rw [hs2]; exact alookup_ainsert_self _ _ _
    have hda : alookup d2 ka = some va := by
      rw [hd2def, alookup_foldl_removeLike _ alookup_aremove_step]
      simp only [List.map_cons, List.map_nil, List.mem_cons, List.not_mem_nil,
        or_false]
      rw [if_neg hab, hd1, Option.getD_some]
      exact alookup_overlay_mem _ kvs3 (KV.from_kv ka va) (by simp [hkvs3]) hnd
    have hdc : alookup d2 kc = some vc := by
      rw [hd2def, alookup_foldl_removeLike _ alookup_aremove_step]
      simp only [List.map_cons, List.map_nil, List.mem_cons, List.not_mem_nil,
        or_false]
      rw [if_neg (fun h => hbc h.symm), hd1, Option.getD_some]
      exact alookup_overlay_mem _ kvs3 (KV.from_kv kc vc) (by simp [hkvs3]) hnd
    refine ⟨KV.from_data d2 { pm with keys := [] } ⟨.Inmem, name⟩, ?_, ?_, ?_⟩
    · simp only [inmemGet]
      rw [show ({ pm with keys := [] } : PathMap).path = pm.path from rfl, hlook2]
    · refine ⟨KV.from_value va ka ka { pm with keys := [] } ⟨.Inmem, name⟩,
        ?_, rfl, rfl⟩
      simp only [KV.from_data, if_pos rfl]
      exact List.mem_map_of_mem _ (alookup_mem _ _ _ hda)
    · refine ⟨KV.from_value vc kc kc { pm with keys := [] } ⟨.Inmem, name⟩,
        ?_, rfl, rfl⟩
      simp only [KV.from_data, if_pos rfl]
      exact List.mem_map_of_mem _ (alookup_mem _ _ _ hdc)

/-- Witness for C2: concrete keys `a`, `b`, `c` on an empty store. -/
theorem claim2_del_semantics_witness :
    ("a" : String) ≠ "b" ∧
    (∃ l, inmemGet "m"
        (inmemDel (inmemPut [] pmW
          [KV.from_kv "a" "1", KV.from_kv "b" "2", KV.from_kv "c" "3"])
          { pmW with keys := [("b", "b")] })
        { pmW with keys := [] } = .ok l ∧
      (∃ kv ∈ l, kv.key = "a" ∧ kv.value = "1") ∧
      (∃ kv ∈ l, kv.key = "c" ∧ kv.value = "3")) :=
  ⟨by decide,
    (claim2_del_semantics "m" [] pmW [] "a" "b" "c" "1" "2" "3"
      (by decide) (by decide) (by decide)).2.2⟩

/-- C9: for the inmem provider, `del(pm)` with non-empty `pm.keys` on a
path absent from the store succeeds and inserts an empty dictionary at the
path, so a subsequent `get(pm)` returns `ok []` where the same `get` before
the delete returned the NotFound error. -/
theorem claim9_inmem_del_absent_path (name : String) (store : Store)
    (pm : PathMap) (habs : alookup store pm.path = none) (hne : pm.keys ≠ []) :
    inmemGet name store pm = .error (.NotFound pm.path "not found") ∧
    alookup (inmemDel store pm) pm.path = some [] ∧
    inmemGet name (inmemDel store pm) pm = .ok [] := by
  have hdel : alookup (inmemDel store pm) pm.path = some [] := by
    simp only [inmemDel, hne, if_false, habs, Option.getD_none]
    rw [foldl_aremove_nil]
    exact alookup_ainsert_self _ _ _
  refine ⟨?_, hdel, ?_⟩
  · simp [inmemGet, habs]
  · simp [inmemGet, hdel, from_data_nil]

/-- Witness for C9: deleting key `x` at an absent path of the empty store. -/
theorem claim9_inmem_del_absent_path_witness :
    inmemGet "m" [] { pmW with keys := [("x", "x")] } =
      .error (.NotFound "app/dev" "not found") ∧
    alookup (inmemDel [] { pmW with keys := [("x", "x")] })
      ({ pmW with keys := [("x", "x")] } : PathMap).path = some [] ∧
    inmemGet "m" (inmemDel [] { pmW with keys := [("x", "x")] })
      { pmW with keys := [("x", "x")] } = .ok [] :=
  claim9_inmem_del_absent_path "m" [] { pmW with keys := [("x", "x")] }
    (by decide) (by decide)

/-! ### Redactor (`teller-core/src/redact.rs`), over `List Char` text -/

/-- Rust `str::len`: the UTF-8 byte length. -/
def utf8Len (l : List Char) : Nat := (l.map Char.utf8Size).sum

/-- Rust `str::contains` with a literal pattern: substring test. -/
def strContains (pat : List Char) : List Char → Bool
  | [] => pat.isEmpty
  | c :: t => pat.isPrefixOf (c :: t) || strContains pat t

/-- Scanning core of Rust `str::replace`: replace non-overlapping
occurrences of `pat` left to right, jumping over each match (the counter
holds how many already-matched characters remain to skip). The source only
calls it with patterns of byte length ≥ 2, hence non-empty. -/
def replAux (pat rep : List Char) : Nat → List Char → List Char
  | _, [] => []
  | 0, c :: t =>
    if pat.isPrefixOf (c :: t) ∧ pat ≠ [] then
      rep ++ replAux pat rep (pat.length - 1) t
    else c :: replAux pat rep 0 t
  | n + 1, _ :: t => replAux pat rep n t

/-- Rust `str::replace` with a literal pattern. -/
def replaceAll (pat rep s : List Char) : List Char := replAux pat rep 0 s

/-- The redaction string of a kv:
`kv.meta.and_then(redact_with).map_or("[REDACTED]", ...)`. -/
def kvRedactWith (kv : KV) : String :=
  (kv.meta.bind MetaInfo.redact_with).getD "[REDACTED]"

/-- One iteration of the replacement loop in `Redactor::redact_string`:
only values of byte length ≥ 2 are replaced. -/
def redactStep (red : List Char) (kv : KV) : List Char :=
  if 2 ≤ utf8Len kv.value.data then
    replaceAll kv.value.data (kvRedactWith kv).data red
  else red

/-- `Redactor::has_match`. -/
def has_match (message : List Char) (kvs : List KV) : Bool :=
  kvs.any (fun kv => strContains kv.value.data message)

/-- `Redactor::redact_string`. -/
def redact_string (message : List Char) (kvs : List KV) : List Char :=
  if has_match message kvs then kvs.foldl redactStep message else message

/-- Strip one trailing carriage return (part of `BufRead::lines`). -/
def stripCR : List Char → List Char
  | [] => []
  | ['\r'] => []
  | c :: t => c :: stripCR t

/-- Split into lines at each newline byte, the newline and one trailing
`\r` removed, a final fragment without newline kept (`BufRead::lines`);
`cur` holds the current line reversed. -/
def linesAux (cur : List Char) : List Char → List (List Char)
  | [] => if cur.isEmpty then [] else [stripCR cur.reverse]
  | '\n' :: t => stripCR cur.reverse :: linesAux [] t
  | c :: t => linesAux (c :: cur) t

/-- The lines of an input stream. -/
def linesOf (s : List Char) : List (List Char) := linesAux [] s

/-- `Redactor::redact`: redact each input line and write it followed by a
single newline. -/
def redact (input : List Char) (kvs : List KV) : List Char :=
  ((linesOf input).map (fun l => redact_string l kvs ++ ['\n'])).flatten

/-- Modelled from the spec: "performs sequential string replacement" —
kv by kv in order, each value of byte length ≥ 2 replaced by the kv's
redaction string (no shortcut branch). -/
def seqReplace (kvs : List KV) (line : List Char) : List Char :=
  kvs.foldl
    (fun acc kv =>
      if 2 ≤ utf8Len kv.value.data then
        replaceAll kv.value.data (kvRedactWith kv).data acc
      else acc)
    line

theorem replaceAll_of_not_contains (pat rep s : List Char)
    (h : strContains pat s = false) : replaceAll pat rep s = s := by
  induction s with
  | nil => rfl
  | cons c t ih =>
    simp only [strContains, Bool.or_eq_false_iff] at h
    simp only [replaceAll, replAux] at ih ⊢
    rw [if_neg (fun hc => by simp [h.1] at hc)]
    rw [ih h.2]

theorem seqReplace_of_no_match (kvs : List KV) (line : List Char)
    (h : ∀ kv ∈ kvs, strContains kv.value.data line = false) :
    seqReplace kvs line = line := by
  induction kvs with
  | nil => rfl
  | cons kv t ih =>
    simp only [seqReplace, List.foldl_cons] at ih ⊢
    rw [show (if 2 ≤ utf8Len kv.value.data then
        replaceAll kv.value.data (kvRedactWith kv).data line else line) = line by
      by_cases hc : 2 ≤ utf8Len kv.value.data
      · rw [if_pos hc, replaceAll_of_not_contains _ _ _ (h kv (List.mem_cons_self _ _))]
      · rw [if_neg hc]]
    exact ih (fun x hx => h x (List.mem_cons_of_mem _ hx))

/-- Counterexample for C3: with the single kv of value `"D]"` (byte length
2, default redaction `"[REDACTED]"`), the redacted line `"D]"` becomes
`"[REDACTED]"`, which still contains the occurrence `"D]"`: an occurrence
of a value of length ≥ 2 remains in the output line. -/
theorem claim3_redactor_counterexample :
    2 ≤ utf8Len (KV.from_kv "x" "D]").value.data ∧
    redact_string ("D]".data) [KV.from_kv "x" "D]"] = "[REDACTED]".data ∧
    strContains ((KV.from_kv "x" "D]").value.data) ("[REDACTED]".data) = true := by
  decide

/-- C3 (amended): the redactor performs sequential replacement, kv by kv,
of every occurrence of each `kv.value` of byte length ≥ 2 with the kv's
`meta.redact_with` (or `"[REDACTED]"`) — a replacement string may itself
contain or recreate a value, so occurrences are not guaranteed absent from
the output; a line containing no `kv.value` passes through unchanged; each
output line is written followed by a single newline (shown on the concrete
stream `"auth: Bearer abcdef ok"` with value `abcdef`). -/
theorem claim3_redactor_amended :
    (∀ (line : List Char) (kvs : List KV),
      (∀ kv ∈ kvs, strContains kv.value.data line = false) →
      redact_string line kvs = line) ∧
    (∀ (line : List Char) (kvs : List KV),
      redact_string line kvs = seqReplace kvs line) ∧
    redact ("auth: Bearer abcdef ok".data) [KV.from_kv "TOKEN" "abcdef"] =
      "auth: Bearer [REDACTED] ok\n".data := by
  refine ⟨?_, ?_, by decide⟩
  · intro line kvs h
    have hm : has_match line kvs = false := by
      simp only [has_match, List.any_eq_false]
      exact fun kv hkv => by simp [h kv hkv]
    simp [redact_string, hm]
  · intro line kvs
    by_cases hm : has_match line kvs = true
    · simp only [redact_string, hm, if_true]
      rfl
    · have hm' : has_match line kvs = false := by
        revert hm; cases has_match line kvs <;> simp
      have hall : ∀ kv ∈ kvs, strContains kv.value.data line = false := by
        simpa [has_match, List.any_eq_false] using hm'
      simp only [redact_string, hm', if_false]
      exact (seqReplace_of_no_match kvs line hall).symm

/-- Witness for C3 (amended): the pass-through conjunct at a concrete
line containing no kv value. -/
theorem claim3_redactor_amended_witness :
    (∀ kv ∈ [KV.from_kv "k" "xyz"],
      strContains kv.value.data ("foobar".data) = false) ∧
    redact_string ("foobar".data) [KV.from_kv "k" "xyz"] = "foobar".data :=
  ⟨by decide, claim3_redactor_amended.1 ("foobar".data) [KV.from_kv "k" "xyz"]
    (by decide)⟩

/-! ### Subprocess environment (`teller-core/src/exec.rs`); the parent
environment is a finite map embedded as `String → Option String` -/

/-- The `ENV_OK` allowlist. -/
def ENV_OK : List String :=
  ["USER", "HOME", "PATH", "TMPDIR", "SHELL", "SSH_AUTH_SOCK", "LANG",
   "LC_ALL", "TEMPDIR", "TERM", "COLORTERM", "LOGNAME"]

/-- `HashMap::insert` on the environment map. -/
def envInsert (m : String → Option String) (k v : String) : String → Option String :=
  fun x => if x = k then some v else m x

/-- The environment built by `cmd_slice`: start from the parent environment
(filtered by `ENV_OK` when `reset_env`), then insert every collected
`(key, value)` pair. -/
def cmdEnv (resetEnv : Bool) (parent : String → Option String)
    (kvs : List (String × String)) : String → Option String :=
  kvs.foldl (fun m p => envInsert m p.1 p.2)
    (fun x => if resetEnv then (if x ∈ ENV_OK then parent x else none) else parent x)

/-- The last binding of a name in the kv pair list (later inserts win). -/
def lookupLast : List (String × String) → String → Option String
  | [], _ => none
  | p :: t, k =>
    match lookupLast t k with
    | some v => some v
    | none => if k = p.1 then some p.2 else none

theorem foldl_envInsert (kvs : List (String × String))
    (m : String → Option String) (x : String) :
    (kvs.foldl (fun m p => envInsert m p.1 p.2) m) x =
      match lookupLast kvs x with
      | some v => some v
      | none => m x := by
  induction kvs generalizing m with
  | nil => simp [lookupLast]
  | cons p t ih =>
    simp only [List.foldl_cons, lookupLast]
    rw [ih]
    cases h : lookupLast t x with
    | some v => simp
    | none =>
      by_cases hx : x = p.1
      · simp [envInsert, hx]
      · simp [envInsert, hx]

/-- C4: with `reset_env = true` the child environment is exactly the parent
environment restricted to the `ENV_OK` allowlist, overlaid with the
collected `(key, value)` pairs, a collected value winning on any name
collision (later pairs win among themselves). -/
theorem claim4_reset_env (parent : String → Option String)
    (kvs : List (String × String)) (x : String) :
    cmdEnv true parent kvs x =
      match lookupLast kvs x with
      | some v => some v
      | none => if x ∈ ENV_OK then parent x else none := by
  simp only [cmdEnv]
  rw [foldl_envInsert]
  cases lookupLast kvs x <;> simp

/-! ### KV ordering (`impl Ord for KV` in `teller-providers/src/config.rs`) -/

/-- `KV::cmp`: when both sides carry provider info and the kinds differ,
order by kind; in every other case order by the mapped-to key. -/
def KV.cmp (a b : KV) : Ordering :=
  match a.provider, b.provider with
  | some p, some q =>
    if kindCmp p.kind q.kind ≠ Ordering.eq then kindCmp p.kind q.kind
    else compare a.key b.key
  | _, _ => compare a.key b.key

/-- A KV with provider kind `dotenv` and key `"a"`. -/
def kvLexA : KV :=
  { value := "", key := "a", from_key := "a", path := none,
    provider := some ⟨.Dotenv, "p1"⟩, meta := none }

/-- A KV without provider info and key `"b"`. -/
def kvLexB : KV := KV.from_kv "b" ""

/-- A KV with provider kind `inmem` and key `"c"`. -/
def kvLexC : KV :=
  { value := "", key := "c", from_key := "c", path := none,
    provider := some ⟨.Inmem, "p2"⟩, meta := none }

/-- Counterexample for C5: the comparison is not a total ordering — it is
not even transitive. With `kvLexA` (kind dotenv, key `a`), `kvLexB` (no
provider info, key `b`) and `kvLexC` (kind inmem, key `c`) we get
`A < B` and `B < C` but `A > C`, because the kind comparison is skipped
whenever either side lacks provider info. -/
theorem claim5_kv_cmp_counterexample :
    KV.cmp kvLexA kvLexB = .lt ∧ KV.cmp kvLexB kvLexC = .lt ∧
    KV.cmp kvLexA kvLexC = .gt := by
  decide

/-- C5 (amended): when both KVs carry provider info the comparison is
lexicographic on `(provider.kind, key)`; when either side lacks provider
info the kind comparison is skipped and the keys alone decide (so on mixed
inputs the relation is not transitive, as the counterexample shows). -/
theorem claim5_kv_cmp_amended :
    (∀ (a b : KV) (p q : ProviderInfo), a.provider = some p →
      b.provider = some q →
      KV.cmp a b = (kindCmp p.kind q.kind).then (compare a.key b.key)) ∧
    (∀ a b : KV, a.provider = none ∨ b.provider = none →
      KV.cmp a b = compare a.key b.key) := by
  constructor
  · intro a b p q hp hq
    simp only [KV.cmp, hp, hq]
    cases h : kindCmp p.kind q.kind <;> simp [Ordering.then, h]
  · intro a b h
    rcases h with h | h <;>
      cases ha : a.provider <;> cases hb : b.provider <;>
        simp_all [KV.cmp]

/-- Witness for C5 (amended): both conjuncts at concrete KVs. -/
theorem claim5_kv_cmp_amended_witness :
    KV.cmp kvLexA kvLexC =
      (kindCmp ProviderKind.Dotenv ProviderKind.Inmem).then (compare "a" "c") ∧
    KV.cmp kvLexA kvLexB = compare "a" "b" :=
  ⟨claim5_kv_cmp_amended.1 kvLexA kvLexC ⟨.Dotenv, "p1"⟩ ⟨.Inmem, "p2"⟩ rfl rfl,
    claim5_kv_cmp_amended.2 kvLexA kvLexB (Or.inr rfl)⟩

/-! ### `Teller::collect` (`teller-core/src/teller.rs`): providers in
config order, each map in declared order, `get` with `?` propagation, one
flatten at the end. A provider's `get` is embedded as a function
`PathMap → Except Error (List KV)`; an entry whose registry lookup comes
back empty (`if let Some(provider)`) is `none`. -/

/-- A provider's `get` operation. -/
abbrev Getter := PathMap → Except Error (List KV)

/-- The inner loop of `collect`: `for pm in maps { res.push(get(pm)?) }`. -/
def getMaps (g : Getter) : List PathMap → Except Error (List (List KV))
  | [] => .ok []
  | pm :: rest =>
    match g pm with
    | .error e => .error e
    | .ok kvs =>
      match getMaps g rest with
      | .error e => .error e
      | .ok l => .ok (kvs :: l)

/-- The outer loop of `collect`, accumulating the per-map KV lists. -/
def collectVecs : List (Option Getter × List PathMap) → Except Error (List (List KV))
  | [] => .ok []
  | (none, _) :: rest => collectVecs rest
  | (some g, maps) :: rest =>
    match getMaps g maps with
    | .error e => .error e
    | .ok kvss =>
      match collectVecs rest with
      | .error e => .error e
      | .ok l => .ok (kvss ++ l)

/-- `Teller::collect`: the accumulated lists, flattened. -/
def collect (entries : List (Option Getter × List PathMap)) :
    Except Error (List KV) :=
  match collectVecs entries with
  | .error e => .error e
  | .ok vs => .ok vs.flatten

theorem getMaps_ok_iff (g : Getter) (maps : List PathMap) :
    (∃ l, getMaps g maps = .ok l) ↔ ∀ pm ∈ maps, ∃ kvs, g pm = .ok kvs := by
  induction maps with
  | nil => simp [getMaps]
  | cons pm rest ih =>
    constructor
    · rintro ⟨l, hl⟩ p hp
      simp only [getMaps] at hl
      cases hg : g pm with
      | error e => rw [hg] at hl; cases hl
      | ok kvs =>
        rw [hg] at hl
        cases hr : getMaps g rest with
        | error e => rw [hr] at hl; cases hl
        | ok l2 =>
          rcases List.mem_cons.mp hp with h | h
          · exact ⟨kvs, h ▸ hg⟩
          · exact ih.mp ⟨l2, hr⟩ p h
    · intro h
      obtain ⟨kvs, hg⟩ := h pm (List.mem_cons_self _ _)
      obtain ⟨l2, hr⟩ := ih.mpr (fun p hp => h p (List.mem_cons_of_mem _ hp))
      exact ⟨kvs :: l2, by simp [getMaps, hg, hr]⟩

theorem getMaps_error (g : Getter) (maps : List PathMap) (e : Error)
    (h : getMaps g maps = .error e) : ∃ pm ∈ maps, g pm = .error e := by
  induction maps with
  | nil => cases h
  | cons pm rest ih =>
    simp only [getMaps] at h
    cases hg : g pm with
    | error e2 =>
      rw [hg] at h
      cases h
      exact ⟨pm, List.mem_cons_self _ _, hg⟩
    | ok kvs =>
      rw [hg] at h
      cases hr : getMaps g rest with
      | error e2 =>
        rw [hr] at h
        cases h
        obtain ⟨p, hp, hpe⟩ := ih hr
        exact ⟨p, List.mem_cons_of_mem _ hp, hpe⟩
      | ok l2 => rw [hr] at h; cases h

theorem collectVecs_ok_iff (entries : List (Option Getter × List PathMap)) :
    (∃ l, collectVecs entries = .ok l) ↔
      ∀ ent ∈ entries, ∀ g, ent.1 = some g → ∀ pm ∈ ent.2, ∃ kvs, g pm = .ok kvs := by
  induction entries with
  | nil => simp [collectVecs]
  | cons ent rest ih =>
    obtain ⟨og, maps⟩ := ent
    cases og with
    | none =>
      simp only [collectVecs]
      rw [ih]
      constructor
      · rintro h e he g hg pm hpm
        rcases List.mem_cons.mp he with h1 | h1
        · rw [h1] at hg; cases hg
        · exact h e h1 g hg pm hpm
      · intro h e he g hg pm hpm
        exact h e (List.mem_cons_of_mem _ he) g hg pm hpm
    | some g =>
      constructor
      · rintro ⟨l, hl⟩ e he g2 hg pm hpm
        simp only [collectVecs] at hl
        cases hm : getMaps g maps with
        | error e2 => rw [hm] at hl; cases hl
        | ok kvss =>
          rw [hm] at hl
          cases hr : collectVecs rest with
          | error e2 => rw [hr] at hl; cases hl
          | ok l2 =>
            rcases List.mem_cons.mp he with h1 | h1
            · rw [h1] at hg
              cases hg
              exact (getMaps_ok_iff g maps).mp ⟨kvss, hm⟩ pm (by rw [h1] at hpm; exact hpm)
            · exact ih.mp ⟨l2, hr⟩ e h1 g2 hg pm hpm
      · intro h
        obtain ⟨kvss, hm⟩ := (getMaps_ok_iff g maps).mpr
          (h (some g, maps) (List.mem_cons_self _ _) g rfl)
        obtain ⟨l2, hr⟩ := ih.mpr
          (fun e he g2 hg pm hpm => h e (List.mem_cons_of_mem _ he) g2 hg pm hpm)
        exact ⟨kvss ++ l2, by simp [collectVecs, hm, hr]⟩

theorem collectVecs_error (entries : List (Option Getter × List PathMap))
    (e : Error) (h : collectVecs entries = .error e) :
    ∃ ent ∈ entries, ∃ g, ent.1 = some g ∧ ∃ pm ∈ ent.2, g pm = .error e := by
  induction entries with
  | nil => cases h
  | cons ent rest ih =>
    obtain ⟨og, maps⟩ := ent
    cases og with
    | none =>
      simp only [collectVecs] at h
      obtain ⟨e2, he2, hg⟩ := ih h
      exact ⟨e2, List.mem_cons_of_mem _ he2, hg⟩
    | some g =>
      simp only [collectVecs] at h
      cases hm : getMaps g maps with
      | error e2 =>
        rw [hm] at h
        cases h
        obtain ⟨pm, hpm, hpe⟩ := getMaps_error g maps _ hm
        exact ⟨(some g, maps), List.mem_cons_self _ _, g, rfl, pm, hpm, hpe⟩
      | ok kvss =>
        rw [hm] at h
        cases hr : collectVecs rest with
        | error e2 =>
          rw [hr] at h
          cases h
          obtain ⟨e3, he3, hg3⟩ := ih hr
          exact ⟨e3, List.mem_cons_of_mem _ he3, hg3⟩
        | ok l2 => rw [hr] at h; cases h

/-- C6: `collect` is fail-fast. It succeeds exactly when every `get` of
every configured `(provider, PathMap)` pair succeeds, and when it fails it
returns an error produced by one of those `get` calls — never a partial
KV list. -/
theorem claim6_collect_fail_fast (entries : List (Option Getter × List PathMap)) :
    ((∃ l, collect entries = .ok l) ↔
      ∀ ent ∈ entries, ∀ g, ent.1 = some g → ∀ pm ∈ ent.2, ∃ kvs, g pm = .ok kvs) ∧
    (∀ e, collect entries = .error e →
      ∃ ent ∈ entries, ∃ g, ent.1 = some g ∧ ∃ pm ∈ ent.2, g pm = .error e) := by
  constructor
  · rw [← collectVecs_ok_iff]
    constructor
    · rintro ⟨l, hl⟩
      simp only [collect] at hl
      cases hv : collectVecs entries with
      | error e => rw [hv] at hl; cases hl
      | ok vs => exact ⟨vs, rfl⟩
    · rintro ⟨vs, hv⟩
      exact ⟨vs.flatten, by simp [collect, hv]⟩
  · intro e he
    simp only [collect] at he
    cases hv : collectVecs entries with
    | error e2 =>
      rw [hv] at he
      cases he
      exact collectVecs_error entries _ hv
    | ok vs => rw [hv] at he; cases he

/-- Witness for C6: a single provider whose only `get` fails makes
`collect` return that very error. -/
theorem claim6_collect_fail_fast_witness :
    ∃ ent ∈ ([(some (fun _ => .error (.Message "boom") : Getter), [pmW])] :
        List (Option Getter × List PathMap)),
      ∃ g, ent.1 = some g ∧ ∃ pm ∈ ent.2, g pm = .error (.Message "boom") :=
  (claim6_collect_fail_fast
    [(some (fun _ => .error (.Message "boom") : Getter), [pmW])]).2
    (.Message "boom") rfl

/-! ### Scanner position (`teller-core/src/scan.rs`). File contents are
embedded as `List Char`; for the single-byte characters of the claims a
character index is a byte offset. -/

/-- Modelled from the spec: Unicode display width per character (the
`unicode-width` crate is an external dependency): control characters are
zero-width, the principal East Asian wide blocks are double-width, all
other characters single-width. -/
def charWidth (c : Char) : Nat :=
  if c.val < 32 ∨ c.val = 127 then 0
  else if (0x1100 ≤ c.val ∧ c.val ≤ 0x115F) ∨ (0x2E80 ≤ c.val ∧ c.val ≤ 0x303E) ∨
      (0x3041 ≤ c.val ∧ c.val ≤ 0x33FF) ∨ (0x3400 ≤ c.val ∧ c.val ≤ 0x4DBF) ∨
      (0x4E00 ≤ c.val ∧ c.val ≤ 0x9FFF) ∨ (0xAC00 ≤ c.val ∧ c.val ≤ 0xD7A3) ∨
      (0xF900 ≤ c.val ∧ c.val ≤ 0xFAFF) ∨ (0xFE30 ≤ c.val ∧ c.val ≤ 0xFE4F) ∨
      (0xFF00 ≤ c.val ∧ c.val ≤ 0xFF60) ∨ (0xFFE0 ≤ c.val ∧ c.val ≤ 0xFFE6)
    then 2
  else 1

/-- `UnicodeWidthStr::width` of a span. -/
def widthStr (l : List Char) : Nat := (l.map charWidth).sum

/-- `Iterator::rposition`: index of the last occurrence. -/
def rpos : List Char → Char → Option Nat
  | [], _ => none
  | c :: t, x =>
    match rpos t x with
    | some i => some (i + 1)
    | none => if c = x then some 0 else none

/-- `get_visual_position`: 1-based `(line, visual column)` of an offset;
the newline count of the prefix gives the line, the display width of
`text[last_ln_start..byte_position]` gives the column. -/
def get_visual_position (text : List Char) (pos : Nat) : Option (Nat × Nat) :=
  if pos ≥ text.length ∨ text.length = 0 then none
  else
    some (((text.take pos).countP (fun c => c == '\n')) + 1,
      widthStr ((text.take pos).drop ((rpos (text.take pos) '\n').getD 0)) + 1)

/-- The line of the spec's formula: number of newline bytes preceding the
offset, plus one. -/
def specLineOf (text : List Char) (pos : Nat) : Nat :=
  ((text.take pos).countP (fun c => c == '\n')) + 1

/-- The column of the spec's formula: display width of the span strictly
after the last newline before the offset, up to the offset, plus one. -/
def specColOf (text : List Char) (pos : Nat) : Nat :=
  widthStr ((text.take pos).drop
    (match rpos (text.take pos) '\n' with
     | some i => i + 1
     | none => 0)) + 1

/-- The match-offset scan of `AhoCorasick::find_iter` for one pattern:
non-overlapping matches, left to right (the counter skips the tail of a
match just found). -/
def findAux (pat : List Char) : Nat → Nat → List Char → List Nat
  | _, _, [] => []
  | pos, 0, c :: t =>
    if pat.isPrefixOf (c :: t) ∧ pat ≠ [] then
      pos :: findAux pat (pos + 1) (pat.length - 1) t
    else findAux pat (pos + 1) 0 t
  | pos, n + 1, _ :: t => findAux pat (pos + 1) n t

/-- All match offsets of a pattern in a text. -/
def findOffsets (pat text : List Char) : List Nat := findAux pat 0 0 text

/-- The `(offset, position)` pairs `scan_root` emits for one file content
and one pattern. -/
def scanContent (pat text : List Char) : List (Nat × Option (Nat × Nat)) :=
  (findOffsets pat text).map (fun off => (off, get_visual_position text off))

theorem rpos_get (l : List Char) (x : Char) (i : Nat) (h : rpos l x = some i) :
    ∃ hi : i < l.length, l.get ⟨i, hi⟩ = x := by
  induction l generalizing i with
  | nil => cases h
  | cons c t ih =>
    simp only [rpos] at h
    cases hr : rpos t x with
    | some j =>
      rw [hr] at h
      cases h
      obtain ⟨hj, hg⟩ := ih j hr
      exact ⟨Nat.succ_lt_succ hj, hg⟩
    | none =>
      rw [hr] at h
      by_cases hc : c = x
      · rw [if_pos hc] at h
        cases h
        exact ⟨Nat.succ_pos _, hc⟩
      · rw [if_neg hc] at h
        cases h

theorem charWidth_newline : charWidth '\n' = 0 := by decide

/-- C7: every reported position is 1-based with the line equal to the
number of newline bytes preceding the offset plus one and the column equal
to the display width of the span from the last newline before the offset
to the offset plus one (the newline itself is zero-width, so including or
excluding it leaves the column equal); in particular scanning
`"db=trooper123\n"` for `"trooper123"` yields the single match at offset 3
with position `(1, 4)`. -/
theorem claim7_scan_position :
    (∀ (text : List Char) (pos : Nat), pos < text.length →
      get_visual_position text pos = some (specLineOf text pos, specColOf text pos)) ∧
    scanContent ("trooper123".data) ("db=trooper123\n".data) = [(3, some (1, 4))] := by
  constructor
  · intro text pos hlt
    have hcond : ¬ (pos ≥ text.length ∨ text.length = 0) := by
      push_neg
      exact ⟨hlt, (Nat.lt_of_le_of_lt (Nat.zero_le _) hlt).ne'⟩
    simp only [get_visual_position, if_neg hcond, specLineOf, specColOf]
    cases hr : rpos (text.take pos) '\n' with
    | none => simp
    | some i =>
      simp only [Option.getD_some]
      obtain ⟨hi, hgi⟩ := rpos_get _ _ _ hr
      have hdrop : (text.take pos).drop i =
          '\n' :: (text.take pos).drop (i + 1) := by
        rw [List.drop_eq_getElem_cons hi]
        rw [show (text.take pos)[i] = (text.take pos).get ⟨i, hi⟩ from rfl, hgi]
      rw [hdrop]
      simp [widthStr, charWidth_newline]
  · decide

/-- Witness for C7: the position formula evaluated at the concrete file
content and offset of the scan scenario. -/
theorem claim7_scan_position_witness :
    (3 < ("db=trooper123\n".data).length) ∧
    get_visual_position ("db=trooper123\n".data) 3 =
      some (specLineOf ("db=trooper123\n".data) 3,
        specColOf ("db=trooper123\n".data) 3) :=
  ⟨by decide, claim7_scan_position.1 ("db=trooper123\n".data) 3 (by decide)⟩

/-! ### Config `==` post-processing (`teller-core/src/config.rs`) -/

/-- `ProviderCfg` (the free-form `options` tree plays no part in the `==`
rewrite and is omitted). -/
structure ProviderCfg where
  kind : ProviderKind
  name : Option String
  maps : List PathMap
deriving DecidableEq, Repr

/-- `Config`: the providers table in its BTree iteration order. -/
structure Config where
  providers : List (String × ProviderCfg)
deriving DecidableEq, Repr

/-- The per-entry rewrite of `apply_eqeq`: a `keys` value that is the
literal `"=="` becomes the key itself. -/
def applyEqeqKeys (keys : List (String × String)) : List (String × String) :=
  keys.map (fun p => if p.2 = "==" then (p.1, p.1) else p)

/-- `apply_eqeq` on one `PathMap`. -/
def applyEqeqPM (pm : PathMap) : PathMap := { pm with keys := applyEqeqKeys pm.keys }

/-- `apply_eqeq`: rewrite every `keys` entry of every map of every
provider. -/
def applyEqeq (c : Config) : Config :=
  ⟨c.providers.map (fun p => (p.1, { p.2 with maps := p.2.maps.map applyEqeqPM }))⟩

/-- A configuration whose text differs only in one `keys` table of one
`PathMap` of one provider: the surrounding providers, maps and the rest of
the `PathMap` are held fixed. -/
def configAround (provsPre provsPost : List (String × ProviderCfg))
    (n : String) (k : ProviderKind) (dn : Option String)
    (mapsPre mapsPost : List PathMap) (pm : PathMap)
    (keys : List (String × String)) : Config :=
  ⟨provsPre ++ (n, ⟨k, dn, mapsPre ++ { pm with keys := keys } :: mapsPost⟩)
    :: provsPost⟩

/-- C8: config loading rewrites every `keys` entry whose value is the
literal `"=="` into an identity entry, so a configuration carrying the
entry `X: "=="` loads to exactly the same post-processed configuration as
the one carrying `X: X` — and hence behaves identically for every
subsequent operation, which only sees the loaded configuration. -/
theorem claim8_eqeq_sugar :
    (∀ (X : String) (pre post : List (String × String)),
      applyEqeqKeys (pre ++ (X, "==") :: post) =
        applyEqeqKeys (pre ++ (X, X) :: post)) ∧
    (∀ (provsPre provsPost : List (String × ProviderCfg)) (n : String)
      (k : ProviderKind) (dn : Option String) (mapsPre mapsPost : List PathMap)
      (pm : PathMap) (X : String) (pre post : List (String × String)),
      applyEqeq (configAround provsPre provsPost n k dn mapsPre mapsPost pm
        (pre ++ (X, "==") :: post)) =
      applyEqeq (configAround provsPre provsPost n k dn mapsPre mapsPost pm
        (pre ++ (X, X) :: post))) := by
  have hkeys : ∀ (X : String) (pre post : List (String × String)),
      applyEqeqKeys (pre ++ (X, "==") :: post) =
        applyEqeqKeys (pre ++ (X, X) :: post) := by
    intro X pre post
    simp only [applyEqeqKeys, List.map_append, List.map_cons]
    congr 2
    by_cases h : X = "=="
    · simp [h]
    · simp [h]
  refine ⟨hkeys, ?_⟩
  intro provsPre provsPost n k dn mapsPre mapsPost pm X pre post
  simp only [applyEqeq, configAround, List.map_append, List.map_cons,
    applyEqeqPM]
  rw [hkeys]

/-! ### External provider (`providers/external.rs`). The subprocess run
for one key is embedded as a function from `(path, from_key)` to the
captured stdout; `prepare_command` and `output()` cannot fail in the
embedding, matching a runnable executable. -/

/-- `External::get`: one point-read per `pm.keys` entry; an empty result
list is reported as NotFound. -/
def externalGet (run : String → String → String) (name : String)
    (pm : PathMap) : Except Error (List KV) :=
  let res := pm.keys.map
    (fun p => KV.from_value (run pm.path p.1) p.1 p.2 pm ⟨.External, name⟩)
  if res = [] then .error (.NotFound pm.path "not found") else .ok res

/-- The `(path, from_key)` subprocess invocations `External::get`
performs: one per `pm.keys` entry. -/
def externalGetInvocations (pm : PathMap) : List (String × String) :=
  pm.keys.map (fun p => (pm.path, p.1))

/-- C10: `External::get` fails exactly when `pm.keys` is empty, and in
that case it returns NotFound having performed no subprocess invocation:
the provider only point-reads listed keys and has no list-all capability.
-/
theorem claim10_external_get_empty_keys (run : String → String → String)
    (name : String) (pm : PathMap) :
    ((∃ e, externalGet run name pm = .error e) ↔ pm.keys = []) ∧
    (pm.keys = [] →
      externalGet run name pm = .error (.NotFound pm.path "not found") ∧
      externalGetInvocations pm = []) := by
  constructor
  · cases hk : pm.keys with
    | nil => simp [externalGet, hk]
    | cons p t => simp [externalGet, hk]
  · intro hk
    constructor
    · simp [externalGet, hk]
    · simp [externalGetInvocations, hk]

/-- Witness for C10: a `PathMap` with empty `keys` on an arbitrary
executable. -/
theorem claim10_external_get_empty_keys_witness :
    externalGet (fun _ _ => "v") "ext" pmW =
      .error (.NotFound "app/dev" "not found") ∧
    externalGetInvocations pmW = [] :=
  (claim10_external_get_empty_keys (fun _ _ => "v") "ext" pmW).2 rfl

end Teller
